import Mathlib

/-!
# NPU — verification of the reference models and control contracts

Shallow embedding of the NPU repository's reference models (the Python golden
models shipped with the cocotb testbenches under `src/sim/` and the host driver
under `src/sw/`) together with synchronous-circuit models of the hardware
blocks the spec describes.  Machine integers are embedded as `ℤ` with explicit
wrapping where the source wraps; Python's arithmetic right shift `>>` is
embedded as flooring division by a power of two.
-/

/-- Python's `>>` on (possibly negative) integers: arithmetic right shift,
i.e. flooring division by `2 ^ s`. -/
def pyShr (v : ℤ) (s : ℕ) : ℤ := Int.fdiv v (2 ^ s)

/-- Embedded from `clamp_int8` (src/sw/fpga_driver.py, src/sim/test_npu_top.py):
saturate to the signed 8-bit range. -/
def clamp_int8 (v : ℤ) : ℤ := max (-128) (min 127 v)

/-- Embedded from `PPUReference.compute` (src/sim/test_post_process.py,
lines 34–61): bias add, scaling, shift-with-rounding (only when `shift > 0`),
zero-point add, optional ReLU, then the two sequential clamp comparisons. -/
def PPUReference.compute (acc bias mult : ℤ) (shift : ℕ) (zero_point : ℤ)
    (en_relu : Bool) : ℤ :=
  let val := acc + bias
  let val := val * mult
  let val := if 0 < shift then pyShr (val + 2 ^ (shift - 1)) shift else val
  let val := val + zero_point
  let val := if en_relu = true ∧ val < 0 then 0 else val
  let val := if val > 127 then 127 else val
  let val := if val < -128 then -128 else val
  val

/-- Embedded from `model_ppu` (src/sim/test_npu_top.py lines 48–56 and
src/sw/fpga_driver.py lines 162–169): same pipeline, final saturation via
`clamp_int8`. -/
def model_ppu (acc bias mult : ℤ) (shift : ℕ) (zero : ℤ) (en_relu : Bool) : ℤ :=
  let val := acc + bias
  let val := val * mult
  let val := if 0 < shift then pyShr (val + 2 ^ (shift - 1)) shift else val
  let val := val + zero
  let val := if en_relu = true ∧ val < 0 then 0 else val
  clamp_int8 val

/-- The spec's PPU contract, written step by step from §4.3 of the spec
(the "rounding law"): widen and add bias, multiply by `mult`, if `shift > 0`
add `1 <<< (shift-1)` and arithmetic-right-shift by `shift` (no rounding when
`shift = 0`), add the zero point, clamp negatives to 0 when ReLU is enabled,
and finally saturate to `[-128, 127]`. -/
def ppu_spec_pipeline (acc bias mult : ℤ) (shift : ℕ) (zero_point : ℤ)
    (relu_enable : Bool) : ℤ :=
  let v1 := acc + bias
  let v2 := v1 * mult
  let v3 := if 0 < shift then pyShr (v2 + 2 ^ (shift - 1)) shift else v2
  let v4 := v3 + zero_point
  let v5 := if relu_enable = true ∧ v4 < 0 then 0 else v4
  max (-128) (min 127 v5)

/-- C1: for every accumulator value and configuration, both reference models of
the PPU (the post-process testbench's and the top-level testbench's) compute
exactly the spec's ordered pipeline — bias add, multiply, round-half-up shift
(bias-before-shift, only when `shift > 0`), zero-point add, optional ReLU,
saturation last; and the rounding is round-half-up, not round-to-even: the
exact half `2 / 2` rounds up to `1` rather than to the even value `0`. -/
theorem ppu_matches_spec_pipeline (acc bias mult : ℤ) (shift : ℕ)
    (zero_point : ℤ) (relu : Bool) :
    PPUReference.compute acc bias mult shift zero_point relu
      = ppu_spec_pipeline acc bias mult shift zero_point relu ∧
    model_ppu acc bias mult shift zero_point relu
      = ppu_spec_pipeline acc bias mult shift zero_point relu ∧
    PPUReference.compute 1 0 1 1 0 false = 1 := by
  refine ⟨?_, rfl, by decide⟩
  unfold PPUReference.compute ppu_spec_pipeline
  dsimp only
  set v := (if relu = true ∧
      (if 0 < shift then pyShr ((acc + bias) * mult + 2 ^ (shift - 1)) shift
        else (acc + bias) * mult) + zero_point < 0
    then (0 : ℤ)
    else (if 0 < shift then pyShr ((acc + bias) * mult + 2 ^ (shift - 1)) shift
        else (acc + bias) * mult) + zero_point) with hv
  rcases le_or_lt v 127 with h1 | h1
  · rcases le_or_lt (-128) v with h2 | h2 <;> (simp; omega)
  · simp; omega

/-! ## Processing element (MAC) arithmetic -/

/-- 32-bit signed minimum, from src/sim/test_mac_pe.py. -/
def MIN_ACC : ℤ := -2147483648

/-- 32-bit signed maximum, from src/sim/test_mac_pe.py. -/
def MAX_ACC : ℤ := 2147483647

/-- Embedded from `test_02_edge_cases` (src/sim/test_mac_pe.py lines 109–113):
the expected accumulator output `acc + w * act`, followed by the testbench's
two sequential single-step wrap corrections simulating 32-bit overflow. -/
def macExpected (acc w act : ℤ) : ℤ :=
  let e := acc + w * act
  let e := if e > MAX_ACC then e - 2 ^ 32 else e
  let e := if e < MIN_ACC then e + 2 ^ 32 else e
  e

/-- Two's-complement interpretation of an integer reduced modulo `2 ^ 32`:
the unique representative in `[-2^31, 2^31)`. -/
def wrap32 (v : ℤ) : ℤ := (v + 2 ^ 31) % 2 ^ 32 - 2 ^ 31

/-- Modelled from the spec: a ProcessingElement holds a retained `weight : i8`
and a running accumulator (§3 of the spec; the PE RTL is not under src/, and
the arithmetic follows the testbench model in src/sim/test_mac_pe.py). -/
structure PEState where
  weight : ℤ
  acc : ℤ

/-- Modelled from the spec: the accumulate step of a PE with `load_weight`
deasserted — the new accumulator value is `acc_in + weight * act` wrapped to
32 bits, and the retained weight is untouched. -/
def PEState.accumulate (s : PEState) (acc_in act : ℤ) : PEState :=
  { weight := s.weight, acc := wrap32 (acc_in + s.weight * act) }

/-- C4 counterexample: at the claim's own example input `acc_in = 2^31 - 2`,
`w = 1`, `act = 1`, the accumulate step produces `2^31 - 1` — the largest
positive 32-bit value, still in range — so no wrap occurs and the result is
not negative, contradicting the claim's "wraps to a negative value". -/
theorem mac_no_wrap_at_claimed_example :
    macExpected (2 ^ 31 - 2) 1 1 = 2 ^ 31 - 1 ∧
    ¬ macExpected (2 ^ 31 - 2) 1 1 < 0 := by decide

/-- C4 (amended): for every weight and activation in the signed 8-bit range
and carried partial sum in the signed 32-bit range, the accumulate step's
expected result equals `acc_in + w * act` reduced modulo `2^32` with
two's-complement semantics and no saturation; a genuinely overflowing input,
`acc_in = 2^31 - 1`, `w = 1`, `act = 1`, wraps to the negative value `-2^31`;
and the accumulate step leaves the retained weight unchanged. -/
theorem mac_wraps_mod_2_pow_32 (acc w act : ℤ)
    (hw₁ : -128 ≤ w) (hw₂ : w ≤ 127) (ha₁ : -128 ≤ act) (ha₂ : act ≤ 127)
    (hc₁ : MIN_ACC ≤ acc) (hc₂ : acc ≤ MAX_ACC) :
    macExpected acc w act = wrap32 (acc + w * act) ∧
    (∀ (s : PEState) (x y : ℤ), (s.accumulate x y).weight = s.weight) ∧
    macExpected (2 ^ 31 - 1) 1 1 = -(2 ^ 31) ∧
    macExpected (2 ^ 31 - 1) 1 1 < 0 := by
  refine ⟨?_, fun s x y => rfl, by decide, by decide⟩
  have k1 : (0 : ℤ) ≤ (127 - w) * (act + 128) := by
    apply mul_nonneg <;> linarith
  have k2 : (0 : ℤ) ≤ (w + 128) * (act + 128) := by
    apply mul_nonneg <;> linarith
  have k3 : (0 : ℤ) ≤ (127 - w) * (127 - act) := by
    apply mul_nonneg <;> linarith
  have hb₁ : -1048576 ≤ w * act := by nlinarith
  have hb₂ : w * act ≤ 1048576 := by nlinarith
  unfold macExpected wrap32 MIN_ACC MAX_ACC at *
  set p := w * act with hp
  dsimp only
  split_ifs <;> omega

/-- Witness for the amended C4 theorem: a concrete in-range instance. -/
theorem mac_wraps_mod_2_pow_32_witness :
    macExpected 1000 (-128) 127 = wrap32 (1000 + (-128) * 127) ∧
    (∀ (s : PEState) (x y : ℤ), (s.accumulate x y).weight = s.weight) ∧
    macExpected (2 ^ 31 - 1) 1 1 = -(2 ^ 31) ∧
    macExpected (2 ^ 31 - 1) 1 1 < 0 :=
  mac_wraps_mod_2_pow_32 1000 (-128) 127 (by decide) (by decide) (by decide)
    (by decide) (by decide) (by decide)

/-! ## Generic bounded queue (FIFO) -/

/-- Modelled from the spec: the generic bounded `Queue<T>` of §4.4 (the
synchronous FIFO RTL exercised by src/sim/common/test_fifo_sync.py is not
under src/).  A depth-`D` FIFO holding its items in arrival order with the
head at the front; `count` is the occupancy. -/
structure Queue (α : Type) (D : ℕ) where
  items : List α

/-- Occupancy of the queue. -/
def Queue.count {α : Type} {D : ℕ} (q : Queue α D) : ℕ := q.items.length

/-- Modelled from the spec: `try_push(item) -> bool` — fails, returns false
and leaves the queue unchanged when `count = D`, otherwise appends the item
at the tail. -/
def Queue.tryPush {α : Type} {D : ℕ} (q : Queue α D) (x : α) :
    Queue α D × Bool :=
  if q.count = D then (q, false) else (⟨q.items ++ [x]⟩, true)

/-- Modelled from the spec: `try_pop() -> Option<item>` — returns `none` and
leaves the queue unchanged when `count = 0`, otherwise removes and returns
the head item. -/
def Queue.tryPop {α : Type} {D : ℕ} (q : Queue α D) :
    Queue α D × Option α :=
  match q.items with
  | [] => (q, none)
  | x :: rest => (⟨rest⟩, some x)

/-- An element of a push/pop request sequence against the queue. -/
inductive QueueOp (α : Type)
  | push (x : α)
  | pop

/-- Apply one request (discarding the reported outcome). -/
def Queue.applyOp {α : Type} {D : ℕ} (q : Queue α D) :
    QueueOp α → Queue α D
  | .push x => (q.tryPush x).1
  | .pop => q.tryPop.1

/-- Run a request sequence from a given state. -/
def Queue.runOps {α : Type} {D : ℕ} (q : Queue α D) (ops : List (QueueOp α)) :
    Queue α D :=
  ops.foldl Queue.applyOp q

theorem Queue.count_applyOp_le {α : Type} {D : ℕ} (q : Queue α D)
    (hq : q.count ≤ D) (op : QueueOp α) : (q.applyOp op).count ≤ D := by
  obtain ⟨items⟩ := q
  cases op with
  | push x =>
    by_cases h : ((⟨items⟩ : Queue α D)).count = D
    · simp [Queue.applyOp, Queue.tryPush, h]
    · simp only [Queue.count] at h hq ⊢
      simp [Queue.applyOp, Queue.tryPush, Queue.count, h]
      omega
  | pop =>
    cases items with
    | nil => exact hq
    | cons x rest =>
      simp only [Queue.count, List.length_cons] at hq
      simp [Queue.applyOp, Queue.tryPop, Queue.count]
      omega

theorem Queue.count_runOps_le {α : Type} {D : ℕ} (q : Queue α D)
    (hq : q.count ≤ D) (ops : List (QueueOp α)) :
    (q.runOps ops).count ≤ D := by
  induction ops generalizing q with
  | nil => exact hq
  | cons op rest ih =>
    exact ih _ (Queue.count_applyOp_le q hq op)

/-- C5: starting from any state within capacity, every push/pop request
sequence keeps the occupancy in `[0, D]` at all times (every prefix of the
sequence, hence every intermediate state, is covered by the quantifier);
`try_push` on a full queue returns failure and leaves the occupancy and the
queued items unchanged; `try_pop` on an empty queue returns nothing and
leaves the state unchanged. -/
theorem fifo_count_bounds_and_refusals {α : Type} {D : ℕ} (q : Queue α D)
    (hq : q.count ≤ D) :
    (∀ ops : List (QueueOp α),
        0 ≤ (q.runOps ops).count ∧ (q.runOps ops).count ≤ D) ∧
    (∀ (r : Queue α D) (x : α), r.count = D → r.tryPush x = (r, false)) ∧
    (∀ r : Queue α D, r.count = 0 → r.tryPop = (r, none)) := by
  refine ⟨fun ops => ⟨Nat.zero_le _, Queue.count_runOps_le q hq ops⟩,
    fun r x hr => ?_, fun r hr => ?_⟩
  · unfold Queue.tryPush
    simp [hr]
  · unfold Queue.tryPop
    rcases h : r.items with _ | ⟨y, rest⟩
    · rfl
    · exfalso
      simp only [Queue.count, h, List.length_cons] at hr
      omega

/-- Witness for C5 at a concrete queue of depth 2. -/
theorem fifo_count_bounds_and_refusals_witness :
    (∀ ops : List (QueueOp ℤ),
        0 ≤ ((⟨[7, 8]⟩ : Queue ℤ 2).runOps ops).count ∧
        ((⟨[7, 8]⟩ : Queue ℤ 2).runOps ops).count ≤ 2) ∧
    (∀ (r : Queue ℤ 2) (x : ℤ), r.count = 2 → r.tryPush x = (r, false)) ∧
    (∀ r : Queue ℤ 2, r.count = 0 → r.tryPop = (r, none)) :=
  fifo_count_bounds_and_refusals (⟨[7, 8]⟩ : Queue ℤ 2) (by decide)

/-- Modelled from the spec: one clock tick of the synchronous FIFO with a
possibly simultaneous write (`w_valid` with data) and read (`r_ready`), as
exercised by scenario 4 of src/sim/common/test_fifo_sync.py.  The read
returns the pre-tick head when the queue is non-empty; the write is accepted
when the pre-tick occupancy is below `D` (the `w_ready` flag). -/
def Queue.tick {α : Type} {D : ℕ} (q : Queue α D) (w : Option α)
    (r : Bool) : Queue α D × Option α :=
  let popped : Option α := if r then q.items.head? else none
  let afterPop : List α :=
    if r then q.items.tail else q.items
  let afterPush : List α :=
    match w with
    | none => afterPop
    | some x => if q.count < D then afterPop ++ [x] else afterPop
  (⟨afterPush⟩, popped)

/-- C10: on a queue that is neither empty nor full, a simultaneous push and
pop in one tick performs both — the returned value is the old head, the
pushed item lands at the tail, the occupancy is unchanged, and the remaining
items keep FIFO order (the next visible head is the old second item). -/
theorem fifo_simultaneous_push_pop {α : Type} {D : ℕ} (q : Queue α D)
    (x : α) (hne : 0 < q.count) (hnf : q.count < D) :
    (q.tick (some x) true).2 = q.items.head? ∧
    ((q.tick (some x) true).1).items = q.items.tail ++ [x] ∧
    ((q.tick (some x) true).1).count = q.count ∧
    ((q.tick (some x) true).1).items.head? =
      (q.items.tail ++ [x]).head? := by
  obtain ⟨items⟩ := q
  cases items with
  | nil => simp [Queue.count] at hne
  | cons y rest =>
    refine ⟨?_, ?_, ?_, ?_⟩ <;>
      simp only [Queue.count, List.length_cons] at hnf <;>
      simp [Queue.tick, Queue.count, hnf]

/-- Witness for C10: depth-3 queue holding `[5, 6]`, pushing `9`. -/
theorem fifo_simultaneous_push_pop_witness :
    ((⟨[5, 6]⟩ : Queue ℤ 3).tick (some 9) true).2 =
      ([5, 6] : List ℤ).head? ∧
    (((⟨[5, 6]⟩ : Queue ℤ 3).tick (some 9) true).1).items =
      ([5, 6] : List ℤ).tail ++ [9] ∧
    (((⟨[5, 6]⟩ : Queue ℤ 3).tick (some 9) true).1).count =
      (⟨[5, 6]⟩ : Queue ℤ 3).count ∧
    (((⟨[5, 6]⟩ : Queue ℤ 3).tick (some 9) true).1).items.head? =
      (([5, 6] : List ℤ).tail ++ [9]).head? :=
  fifo_simultaneous_push_pop (⟨[5, 6]⟩ : Queue ℤ 3) 9 (by decide) (by decide)

/-! ## End-to-end reference computation -/

/-- Embedded from `compute_ref` (src/sim/test_npu_top.py lines 58–71): the
4×4 result of the full run — raw accumulation `acc[r][c] = Σ_k A[r][k] *
B[k][c]` over the contraction depth `k_dim`, then the PPU applied per entry
with the per-column bias. -/
def compute_ref (A : Fin 4 → ℕ → ℤ) (B : ℕ → Fin 4 → ℤ) (k_dim : ℕ)
    (bias : Fin 4 → ℤ) (mult : ℤ) (shift : ℕ) (zero : ℤ) (en_relu : Bool) :
    Fin 4 → Fin 4 → ℤ :=
  fun r c =>
    model_ppu (∑ k ∈ Finset.range k_dim, A r k * B k c) (bias c)
      mult shift zero en_relu

/-- The 4×4 identity weight matrix (`ident` in src/sw/fpga_driver.py,
`weights_matrix` in src/sim/test_array.py). -/
def identWeights : ℕ → Fin 4 → ℤ := fun k c => if k = (c : ℕ) then 1 else 0

/-- All-zero per-column bias. -/
def biasZero : Fin 4 → ℤ := fun _ => 0

/-- Modelled from the spec: on `dump` the array drains row `R-1` (bottom)
first and row 0 last (§4.2; `read_results` in src/sw/fpga_driver.py reverses
the captured sequence to recover row-major order).  The drained sequence is
therefore the reverse of the row-major rows. -/
def drainRows (M : Fin 4 → Fin 4 → ℤ) : List (List ℤ) :=
  ((List.finRange 4).reverse).map fun r => (List.finRange 4).map fun c => M r c

/-- The identity activation matrix of the end-to-end scenario, as a
`Fin 4 → ℕ → ℤ` operand (entries beyond column 3 are zero and unused at
`K = 4`). -/
def identActs : Fin 4 → ℕ → ℤ := fun r k => if (r : ℕ) = k then 1 else 0

theorem compute_ref_identity_entry (A : Fin 4 → ℕ → ℤ)
    (hA : ∀ (r : Fin 4) (k : ℕ), k < 4 → -128 ≤ A r k ∧ A r k ≤ 127)
    (r c : Fin 4) :
    compute_ref A identWeights 4 biasZero 1 0 0 false r c = A r (c : ℕ) := by
  have hacc : (∑ k ∈ Finset.range 4, A r k * identWeights k c) = A r (c : ℕ) := by
    have hc : (c : ℕ) ∈ Finset.range 4 := Finset.mem_range.mpr c.isLt
    rw [Finset.sum_eq_single_of_mem (c : ℕ) hc]
    · simp [identWeights]
    · intro b _ hb
      simp [identWeights, hb]
  have hrange := hA r (c : ℕ) c.isLt
  unfold compute_ref model_ppu clamp_int8 biasZero
  rw [hacc]
  simp
  omega

/-- C3: a full load→run→drain cycle with identity weights and the PPU in
bypass (`mult = 1`, `shift = 0`, `bias = 0`, `zero = 0`, `relu = false`)
reproduces any in-range activation matrix exactly; and in the concrete
end-to-end scenario (4×4 identity weights, `K = 4`, identity activations)
the drained rows before bottom-up reversal are
`[[0,0,0,1],[0,0,1,0],[0,1,0,0],[1,0,0,0]]` — row 3 first, row 0 last. -/
theorem identity_transparency_and_drain_order (A : Fin 4 → ℕ → ℤ)
    (hA : ∀ (r : Fin 4) (k : ℕ), k < 4 → -128 ≤ A r k ∧ A r k ≤ 127) :
    (∀ r c : Fin 4,
      compute_ref A identWeights 4 biasZero 1 0 0 false r c = A r (c : ℕ)) ∧
    drainRows (compute_ref identActs identWeights 4 biasZero 1 0 0 false) =
      [[0, 0, 0, 1], [0, 0, 1, 0], [0, 1, 0, 0], [1, 0, 0, 0]] := by
  refine ⟨fun r c => compute_ref_identity_entry A hA r c, ?_⟩
  decide

/-- Witness for C3 at the concrete identity activation matrix. -/
theorem identity_transparency_witness :
    (∀ r c : Fin 4,
      compute_ref identActs identWeights 4 biasZero 1 0 0 false r c =
        identActs r (c : ℕ)) ∧
    drainRows (compute_ref identActs identWeights 4 biasZero 1 0 0 false) =
      [[0, 0, 0, 1], [0, 0, 1, 0], [0, 1, 0, 0], [1, 0, 0, 0]] :=
  identity_transparency_and_drain_order identActs
    (by intro r k hk; unfold identActs; split <;> omega)

/-! ## Control sequencer: register file and busy lock -/

/-- Modelled from the spec: the protected configuration state of the
ControlSequencer's register file (§4.5, §3 `QuantizationConfig`; the
sequencer RTL exercised by `test_chaos_monkey_mmio` is not under src/) —
quantization multiplier, shift, zero point, run length, and the `busy`
status bit. -/
structure RegFile where
  quantMult : ℤ
  quantShift : ℕ
  zeroPoint : ℤ
  runLength : ℕ
  busy : Bool

/-- A host write to one of the busy-locked configuration registers:
`REG_QUANT_MULT`, `REG_QUANT_CFG` (packed shift and zero point), or
`REG_CONFIG` (run length). -/
inductive CfgWrite
  | mult (v : ℤ)
  | shiftZero (s : ℕ) (z : ℤ)
  | runLen (v : ℕ)

/-- Modelled from the spec: the busy-lock — while `busy` is asserted a write
to a protected configuration register is rejected and the new value is not
latched; otherwise the write is latched. -/
def RegFile.write (rf : RegFile) (w : CfgWrite) : RegFile :=
  if rf.busy then rf
  else
    match w with
    | .mult v => { rf with quantMult := v }
    | .shiftZero s z => { rf with quantShift := s, zeroPoint := z }
    | .runLen v => { rf with runLength := v }

/-- Apply a whole sequence of host write attempts. -/
def RegFile.writeAll (rf : RegFile) (ws : List CfgWrite) : RegFile :=
  ws.foldl RegFile.write rf

/-- The numeric result of the in-flight run under the register file's
effective parameters (per-column bias table and relu flag passed alongside),
computed by the embedded reference model `compute_ref`. -/
def RegFile.runResult (rf : RegFile) (A : Fin 4 → ℕ → ℤ) (B : ℕ → Fin 4 → ℤ)
    (bias : Fin 4 → ℤ) (relu : Bool) : Fin 4 → Fin 4 → ℤ :=
  compute_ref A B rf.runLength bias rf.quantMult rf.quantShift rf.zeroPoint relu

theorem RegFile.writeAll_busy_eq (rf : RegFile) (hb : rf.busy = true)
    (ws : List CfgWrite) : rf.writeAll ws = rf := by
  induction ws with
  | nil => rfl
  | cons w rest ih =>
    have hw : rf.write w = rf := by
      unfold RegFile.write
      rw [hb]
      simp
    unfold RegFile.writeAll at ih ⊢
    rw [List.foldl_cons, hw]
    exact ih

/-- C2: while `busy` is asserted, a host write to any protected configuration
register (quantization mult, packed shift/zero-point, run length) is rejected
and the new value is not latched; for any sequence of such writes issued
during the run, the effective multiplier and run length are identical to the
values latched before start, and the run's results equal those of a run with
no such writes. -/
theorem busy_lock_protects_inflight_run (rf : RegFile) (hb : rf.busy = true) :
    (∀ w : CfgWrite, rf.write w = rf) ∧
    (∀ ws : List CfgWrite,
      (rf.writeAll ws).quantMult = rf.quantMult ∧
      (rf.writeAll ws).runLength = rf.runLength) ∧
    (∀ (ws : List CfgWrite) (A : Fin 4 → ℕ → ℤ) (B : ℕ → Fin 4 → ℤ)
        (bias : Fin 4 → ℤ) (relu : Bool),
      (rf.writeAll ws).runResult A B bias relu = rf.runResult A B bias relu) := by
  refine ⟨fun w => ?_, fun ws => ?_, fun ws A B bias relu => ?_⟩
  · unfold RegFile.write
    rw [hb]
    simp
  · rw [RegFile.writeAll_busy_eq rf hb ws]
    exact ⟨rfl, rfl⟩
  · rw [RegFile.writeAll_busy_eq rf hb ws]

/-- Witness for C2 at a concrete busy register file. -/
theorem busy_lock_witness :
    (∀ w : CfgWrite, (RegFile.mk 1 0 0 128 true).write w =
      RegFile.mk 1 0 0 128 true) ∧
    (∀ ws : List CfgWrite,
      ((RegFile.mk 1 0 0 128 true).writeAll ws).quantMult =
        (RegFile.mk 1 0 0 128 true).quantMult ∧
      ((RegFile.mk 1 0 0 128 true).writeAll ws).runLength =
        (RegFile.mk 1 0 0 128 true).runLength) ∧
    (∀ (ws : List CfgWrite) (A : Fin 4 → ℕ → ℤ) (B : ℕ → Fin 4 → ℤ)
        (bias : Fin 4 → ℤ) (relu : Bool),
      ((RegFile.mk 1 0 0 128 true).writeAll ws).runResult A B bias relu =
        (RegFile.mk 1 0 0 128 true).runResult A B bias relu) :=
  busy_lock_protects_inflight_run (RegFile.mk 1 0 0 128 true) rfl

/-! ## Synchronous signals and delay lines

Signals are time-indexed values; a register is a unit delay that resets to a
default and copies its input's previous value at every clock edge.  Testbench
observations happen just after a clock edge: observation slot `t` reads the
value a signal holds during cycle `t + 1`, which for a registered path is a
function of the inputs driven during cycles `0 … t`. -/

/-- A `j`-stage register chain over the time-indexed signal `u`: the value
after `j` unit delays, each register resetting to `d`. -/
def delaySig {α : Type} (d : α) (u : ℕ → α) : ℕ → ℕ → α
  | 0, t => u t
  | _ + 1, 0 => d
  | j + 1, t + 1 => delaySig d u j t

theorem delaySig_eq {α : Type} (d : α) (u : ℕ → α) (j t : ℕ) :
    delaySig d u j t = if j ≤ t then u (t - j) else d := by
  induction j generalizing t with
  | zero => simp [delaySig]
  | succ j ih =>
    cases t with
    | zero => simp [delaySig]
    | succ t =>
      show delaySig d u j t = _
      rw [ih]
      by_cases h : j ≤ t
      · rw [if_pos h, if_pos (by omega)]
        congr 1
        omega
      · rw [if_neg h, if_neg (by omega)]

/-! ## Skew buffer -/

/-- Modelled from the spec: the effective lane input of a skew/deskew buffer —
when `valid` is low, a zero bubble replaces the data in every lane (§4.1; the
buffer RTL exercised by src/sim/test_input_buffer.py is not under src/). -/
def laneEff (N : ℕ) (data : ℕ → Fin N → ℤ) (valid : ℕ → Bool) (i : Fin N)
    (t : ℕ) : ℤ :=
  if valid t then data t i else 0

/-- Modelled from the spec: lane `i` of the SkewBuffer output at observation
slot `t` — the effective lane input taken through `i` triangular skew stages
plus the common output register (`i + 1` unit delays), so that lane `i`
carries the vector accepted `i` cycles after lane 0's, matching the
testbench's per-slot checks in src/sim/test_input_buffer.py. -/
def skewObs (N : ℕ) (data : ℕ → Fin N → ℤ) (valid : ℕ → Bool) (t : ℕ)
    (i : Fin N) : ℤ :=
  delaySig 0 (laneEff N data valid i) ((i : ℕ) + 1) (t + 1)

/-- C7: for every push sequence, lane `i` of the SkewBuffer output at slot `t`
equals the lane-`i` value of the vector pushed at slot `t - i` (lane 0 with
zero relative delay, lane `i` delayed `i` cycles), where a push with
`valid = false` contributes a zero bubble; and the data input on invalid
cycles never affects any output — two data streams agreeing on all valid
cycles produce identical outputs everywhere. -/
theorem skew_lane_delay_and_bubbles (N : ℕ) (data data2 : ℕ → Fin N → ℤ)
    (valid : ℕ → Bool) (t : ℕ) (i : Fin N) (hit : (i : ℕ) ≤ t) :
    skewObs N data valid t i =
      (if valid (t - (i : ℕ)) then data (t - (i : ℕ)) i else 0) ∧
    ((∀ τ, valid τ = true → data τ = data2 τ) →
      ∀ t' : ℕ, ∀ j : Fin N,
        skewObs N data valid t' j = skewObs N data2 valid t' j) := by
  constructor
  · unfold skewObs
    rw [delaySig_eq, if_pos (by omega)]
    unfold laneEff
    have harg : t + 1 - ((i : ℕ) + 1) = t - (i : ℕ) := by omega
    rw [harg]
  · intro hagree t' j
    unfold skewObs
    rw [delaySig_eq, delaySig_eq]
    by_cases h : (j : ℕ) + 1 ≤ t' + 1
    · rw [if_pos h, if_pos h]
      unfold laneEff
      by_cases hv : valid (t' + 1 - ((j : ℕ) + 1)) = true
      · rw [if_pos hv, if_pos hv, hagree _ hv]
      · rw [if_neg hv, if_neg hv]
    · rw [if_neg h, if_neg h]

/-- Witness for C7: a concrete 4-lane stream at slot 3, lane 2. -/
theorem skew_lane_delay_witness :
    skewObs 4 (fun t _ => (t : ℤ) + 10) (fun _ => true) 3 2 =
      (if true then ((3 : ℤ) - 2 + 10) else 0) ∧
    ((∀ τ : ℕ, true = true →
        (fun (_ : Fin 4) => ((τ : ℤ) + 10)) = fun (_ : Fin 4) => ((τ : ℤ) + 10)) →
      ∀ t' : ℕ, ∀ j : Fin 4,
        skewObs 4 (fun t _ => (t : ℤ) + 10) (fun _ => true) t' j =
          skewObs 4 (fun t _ => (t : ℤ) + 10) (fun _ => true) t' j) := by
  have h := skew_lane_delay_and_bubbles 4 (fun t _ => (t : ℤ) + 10)
    (fun t _ => (t : ℤ) + 10) (fun _ => true) 3 2 (by decide)
  exact ⟨by rw [h.1]; norm_num, fun _ t' j => rfl⟩

/-! ## Deskew buffer -/

/-- Modelled from the spec: the DeskewBuffer's `valid_out` at observation
slot `t` — the input valid flag taken through the longest lane's chain
(`N - 1` alignment stages plus the output register), resetting low (§4.1;
timing matches `test_valid_signal_delay` in
src/sim/core/test_output_buffer.py). -/
def deskewValidObs (N : ℕ) (valid : ℕ → Bool) (t : ℕ) : Bool :=
  delaySig false valid N (t + 1)

/-- C8: after reset, the DeskewBuffer's `valid_out` asserts exactly `N - 1`
slots after the slot of the first accepted push, is never asserted on any
earlier slot, and stays asserted on every later slot as long as pushes keep
arriving (continuous `valid`). -/
theorem deskew_valid_latency (N : ℕ) (valid : ℕ → Bool) (t0 : ℕ)
    (hN : 0 < N) (hfirst : ∀ τ, τ < t0 → valid τ = false)
    (hpush : valid t0 = true) :
    (∀ t, t < t0 + (N - 1) → deskewValidObs N valid t = false) ∧
    deskewValidObs N valid (t0 + (N - 1)) = true ∧
    ((∀ τ, t0 ≤ τ → valid τ = true) →
      ∀ t, t0 + (N - 1) ≤ t → deskewValidObs N valid t = true) := by
  refine ⟨fun t ht => ?_, ?_, fun hcont t ht => ?_⟩
  · unfold deskewValidObs
    rw [delaySig_eq]
    by_cases h : N ≤ t + 1
    · rw [if_pos h]
      exact hfirst _ (by omega)
    · rw [if_neg h]
  · unfold deskewValidObs
    rw [delaySig_eq, if_pos (by omega)]
    have : t0 + (N - 1) + 1 - N = t0 := by omega
    rw [this, hpush]
  · unfold deskewValidObs
    rw [delaySig_eq, if_pos (by omega)]
    exact hcont _ (by omega)

/-- Witness for C8: four lanes, first push at slot 1, pushes continuing. -/
theorem deskew_valid_latency_witness :
    deskewValidObs 4 (fun τ => decide (1 ≤ τ)) 3 = false ∧
    deskewValidObs 4 (fun τ => decide (1 ≤ τ)) 4 = true ∧
    deskewValidObs 4 (fun τ => decide (1 ≤ τ)) 9 = true := by
  have h := deskew_valid_latency 4 (fun τ => decide (1 ≤ τ)) 1 (by decide)
    (fun τ hτ => by
      have hz : τ = 0 := by omega
      subst hz
      decide) (by decide)
  exact ⟨h.1 3 (by decide), h.2.1,
    h.2.2 (fun τ hτ => by simp [hτ]) 9 (by decide)⟩

/-! ## Systolic array -/

/-- Embedded from `skew_input_matrix` (src/sim/test_array.py lines 66–94):
the skewed activation stream — lane `r` at cycle `t` carries entry `r` of
input vector `t - r`, and zero padding outside the valid window. -/
def skew_input_matrix (X : ℕ → ℕ → ℤ) (numVecs : ℕ) (t r : ℕ) : ℤ :=
  if r ≤ t ∧ t - r < numVecs then X (t - r) r else 0

/-- Modelled from the spec: the activation signal entering PE `(r, c)` during
cycle `t` — the left-edge stream's lane `r` delayed by `c` one-hop registers
(§4.2 compute mode; the SystolicArray RTL exercised by src/sim/test_array.py
is not under src/). -/
def actSig (stream : ℕ → ℕ → ℤ) (r c t : ℕ) : ℤ :=
  delaySig 0 (fun τ => stream τ r) c t

/-- Modelled from the spec: the partial-sum signal entering row `r` of column
`c` during cycle `t` of the weight-stationary array — row 0 receives zero, and
each PE registers `acc_in + weight * act_in` every active cycle, partial sums
flowing down one hop per cycle. -/
def accSig (W : ℕ → ℕ → ℤ) (stream : ℕ → ℕ → ℤ) : ℕ → ℕ → ℕ → ℤ
  | 0, _, _ => 0
  | _ + 1, _, 0 => 0
  | r + 1, c, t + 1 => accSig W stream r c t + W r c * actSig stream r c t

theorem actSig_skewed (X : ℕ → ℕ → ℤ) (K r c k : ℕ) (hk : k < K) :
    actSig (skew_input_matrix X K) r c (k + r + c) = X k r := by
  unfold actSig
  rw [delaySig_eq, if_pos (by omega)]
  unfold skew_input_matrix
  have h1 : k + r + c - c = k + r := by omega
  rw [h1, if_pos (by omega)]
  congr 1
  omega

/-- The arrival law of `deskew_output_matrix` (src/sim/test_array.py lines
96–117): the contraction result for input vector `k` and column `c` leaves
the bottom of an `R`-row array at observation slot `k + R + c`, one slot per
vector, one column per cycle. -/
theorem accSig_arrival (W X : ℕ → ℕ → ℤ) (K k : ℕ) (hk : k < K)
    (c R : ℕ) :
    accSig W (skew_input_matrix X K) R c (k + R + c) =
      ∑ j ∈ Finset.range R, W j c * X k j := by
  induction R with
  | zero => simp [accSig]
  | succ R ih =>
    have ht : k + (R + 1) + c = (k + R + c) + 1 := by omega
    rw [ht]
    show accSig W (skew_input_matrix X K) R c (k + R + c) +
        W R c * actSig (skew_input_matrix X K) R c (k + R + c) = _
    rw [ih, actSig_skewed X K R c k hk, Finset.sum_range_succ]

/-- Modelled from the spec: the core's realigned output, column `c`, at
observation slot `t` — the bottom-edge partial sum of the `R`-row array taken
through the array's output register and the DeskewBuffer lane's `C - 1 - c`
alignment stages plus output register (`C - c + 1` unit delays in total). -/
def alignedObs (W stream : ℕ → ℕ → ℤ) (R C c t : ℕ) : ℤ :=
  delaySig 0 (accSig W stream R c) (C - c + 1) (t + 1)

/-- C9: for the `R×C` weight-stationary array fed the skewed stream of `K`
input vectors, (a) one new vector is accepted per cycle — lane `r` of vector
`k` enters at cycle `k + r`; (b) the raw bottom-edge result for vector `k`,
column `c`, appears at observation slot `k + R + c` (the testbench's
`deskew_output_matrix` arrival law), so consecutive vectors pipeline one slot
apart; and (c) after deskew realignment every column of vector `k`'s result
is co-located at slot `k + R + C`, so the first fully valid output vector
appears exactly `R + C` slots after the first skewed input entered. -/
theorem array_latency_and_pipelining (R C K : ℕ) (W X : ℕ → ℕ → ℤ)
    (k : ℕ) (hk : k < K) :
    (∀ r, skew_input_matrix X K (k + r) r = X k r) ∧
    (∀ c, accSig W (skew_input_matrix X K) R c (k + R + c) =
        ∑ j ∈ Finset.range R, W j c * X k j) ∧
    (∀ c, c < C →
      alignedObs W (skew_input_matrix X K) R C c (k + R + C) =
        ∑ j ∈ Finset.range R, W j c * X k j) := by
  refine ⟨fun r => ?_, fun c => accSig_arrival W X K k hk c R,
    fun c hc => ?_⟩
  · unfold skew_input_matrix
    rw [if_pos (by omega)]
    congr 1
    omega
  · unfold alignedObs
    rw [delaySig_eq, if_pos (by omega)]
    have ht : k + R + C + 1 - (C - c + 1) = k + R + c := by omega
    rw [ht]
    exact accSig_arrival W X K k hk c R

/-- Witness for C9: a 2×2 array of weight 2 fed one all-3 input vector. -/
theorem array_latency_witness :
    skew_input_matrix (fun _ _ => (3 : ℤ)) 1 (0 + 1) 1 = 3 ∧
    accSig (fun _ _ => (2 : ℤ)) (skew_input_matrix (fun _ _ => (3 : ℤ)) 1)
        2 0 (0 + 2 + 0) = ∑ _j ∈ Finset.range 2, (2 : ℤ) * 3 ∧
    alignedObs (fun _ _ => (2 : ℤ)) (skew_input_matrix (fun _ _ => (3 : ℤ)) 1)
        2 2 1 (0 + 2 + 2) = ∑ _j ∈ Finset.range 2, (2 : ℤ) * 3 := by
  have h := array_latency_and_pipelining 2 2 1 (fun _ _ => (2 : ℤ))
    (fun _ _ => (3 : ℤ)) 0 (by decide)
  exact ⟨h.1 1, h.2.1 0, h.2.2 1 (by decide)⟩

/-! ## Output queue backpressure -/

/-- Modelled from the spec: the result-egress pipeline — the run's pending
results, the bounded output queue of depth `D`, and the values the host has
retrieved so far, in order (§5, §7; the output path exercised by
`test_backpressure_torture` is not under src/). -/
structure EgressState (α : Type) (D : ℕ) where
  pending : List α
  q : List α
  received : List α

/-- Modelled from the spec: one cycle of the egress pipeline.  If the host
asserts a read and the queue is non-empty, the head value is delivered; then
the producer, stalled while the queue reports full, pushes its next pending
result if there is room.  Results are held under backpressure, never dropped
or overwritten. -/
def egressStep {α : Type} {D : ℕ} (s : EgressState α D) (read : Bool) :
    EgressState α D :=
  let popped :=
    if read then
      match s.q with
      | [] => (s.q, s.received)
      | x :: rest => (rest, s.received ++ [x])
    else (s.q, s.received)
  match s.pending with
  | [] => ⟨[], popped.1, popped.2⟩
  | y :: ys =>
    if popped.1.length < D then ⟨ys, popped.1 ++ [y], popped.2⟩
    else ⟨s.pending, popped.1, popped.2⟩

/-- Run the egress pipeline over a host read schedule (one Bool per cycle). -/
def egressRun {α : Type} {D : ℕ} (s : EgressState α D) (sched : List Bool) :
    EgressState α D :=
  sched.foldl egressStep s

/-- The initial egress state: all results pending, queue empty, none read. -/
def egressInit (α : Type) (D : ℕ) (results : List α) : EgressState α D :=
  ⟨results, [], []⟩

theorem egressStep_partition {α : Type} {D : ℕ} (s : EgressState α D)
    (read : Bool) :
    (egressStep s read).received ++ (egressStep s read).q ++
        (egressStep s read).pending =
      s.received ++ s.q ++ s.pending := by
  unfold egressStep
  cases read with
  | false =>
    cases s.pending with
    | nil => simp
    | cons y ys =>
      by_cases h : s.q.length < D <;> simp [h]
  | true =>
    cases hq : s.q with
    | nil =>
      cases s.pending with
      | nil => simp
      | cons y ys =>
        by_cases h : 0 < D <;> simp [hq, h]
    | cons x rest =>
      cases s.pending with
      | nil => simp [hq]
      | cons y ys =>
        by_cases h : rest.length < D <;> simp [hq, h]

theorem egressRun_partition {α : Type} {D : ℕ} (s : EgressState α D)
    (sched : List Bool) :
    (egressRun s sched).received ++ (egressRun s sched).q ++
        (egressRun s sched).pending =
      s.received ++ s.q ++ s.pending := by
  induction sched generalizing s with
  | nil => rfl
  | cons b rest ih =>
    have hstep : egressRun s (b :: rest) = egressRun (egressStep s b) rest := rfl
    rw [hstep, ih (egressStep s b), egressStep_partition]

/-- C6: the values a host retrieves from the output queue are always an
in-order prefix of the run's result sequence, for every read schedule; hence
any two schedules over the same run that retrieve the full result count —
one with arbitrary delays, one with immediate reads — retrieve bit-identical
values in the same order, namely the results themselves.  Delay affects only
timing; pending results are held under backpressure, never dropped,
reordered, or overwritten. -/
theorem backpressure_schedule_independence {α : Type} {D : ℕ}
    (results : List α) (sched₁ sched₂ : List Bool)
    (h₁ : (egressRun (egressInit α D results) sched₁).received.length =
      results.length)
    (h₂ : (egressRun (egressInit α D results) sched₂).received.length =
      results.length) :
    (∀ sched : List Bool,
      (egressRun (egressInit α D results) sched).received =
        results.take
          (egressRun (egressInit α D results) sched).received.length) ∧
    (egressRun (egressInit α D results) sched₁).received = results ∧
    (egressRun (egressInit α D results) sched₁).received =
      (egressRun (egressInit α D results) sched₂).received := by
  have hpart : ∀ sched : List Bool,
      (egressRun (egressInit α D results) sched).received ++
        (egressRun (egressInit α D results) sched).q ++
        (egressRun (egressInit α D results) sched).pending = results := by
    intro sched
    have h := egressRun_partition (egressInit α D results) sched
    simpa [egressInit] using h
  have hpref : ∀ sched : List Bool,
      (egressRun (egressInit α D results) sched).received =
        results.take
          (egressRun (egressInit α D results) sched).received.length := by
    intro sched
    have h := hpart sched
    rw [List.append_assoc] at h
    generalize hrec : (egressRun (egressInit α D results) sched).received = rec
      at h ⊢
    rw [← h, List.take_left]
  have hfull : ∀ sched : List Bool,
      (egressRun (egressInit α D results) sched).received.length =
        results.length →
      (egressRun (egressInit α D results) sched).received = results := by
    intro sched hlen
    rw [hpref sched, hlen, List.take_length]
  exact ⟨hpref, hfull sched₁ h₁, by rw [hfull sched₁ h₁, hfull sched₂ h₂]⟩

/-- Witness for C6: two results through a depth-1 queue — an immediate
schedule and a stalling schedule retrieve the same values in order. -/
theorem backpressure_witness :
    (egressRun (egressInit ℤ 1 [1, 2]) [false, true, false, true]).received =
      ([1, 2] : List ℤ).take
        (egressRun (egressInit ℤ 1 [1, 2])
          [false, true, false, true]).received.length ∧
    (egressRun (egressInit ℤ 1 [1, 2]) [true, true, true]).received = [1, 2] ∧
    (egressRun (egressInit ℤ 1 [1, 2]) [true, true, true]).received =
      (egressRun (egressInit ℤ 1 [1, 2])
        [false, false, true, true, false, true]).received := by
  have h := @backpressure_schedule_independence ℤ 1 [1, 2]
    [true, true, true] [false, false, true, true, false, true]
    (by decide) (by decide)
  exact ⟨h.1 [false, true, false, true], h.2.1, h.2.2⟩
